import Mathlib

/-
Shallow embedding of the obsidian-dialogue-mode plugin (src/main.ts).

Text is modelled as `List Char`.  The shared classifier
`processTextForDialogue` (main.ts lines 119-170) produces DOM span elements;
we model each produced element as a `Span` record carrying the exact text and
the classification (class "dialogue-text" ↦ `isDialogue = true`, class
"non-dialogue-text" ↦ `isDialogue = false`).

The viewport driver `buildDecorations` (main.ts lines 233-280) walks the
visible ranges of a line-structured document.  The document is modelled as a
`List (List Char)` of line texts; lines are joined by a single newline
character, so line `k` starts at offset `lfrom k = Σ_{j<k} (len j + 1)` and
ends at `lto k = lfrom k + len k`, exactly the `line.from`/`line.to` offsets
of the editor.  `Decoration.set(builder, true)` only sorts the builder; we
keep the builder list in emission order and reason about it directly.
-/

/-- A contiguous run of characters with a uniform classification; models one
span element pushed by processTextForDialogue (main.ts lines 132-135,
142-145, 155-166). -/
structure Span where
  text : List Char
  isDialogue : Bool
deriving DecidableEq

/-- Open-glyph table, main.ts line 120 (duplicated at line 239). -/
def openQuotes : List Char := ['"', '“', '‘']

/-- Close-glyph table, main.ts line 121 (duplicated at line 240). -/
def closeQuotes : List Char := ['"', '”', '’']

/-- The boundary test of main.ts line 130 (`i === text.length - 1 ||
text[i+1] === ' ' || text[i+1] === '.' || text[i+1] === ','`), phrased on the
list of characters after the current one. -/
def isBoundary : List Char → Bool
  | [] => true
  | c :: _ => c == ' ' || c == '.' || c == ','

/-- The character loop of processTextForDialogue (main.ts lines 125-167),
with the trailing buffer flush of lines 155-167 in the nil case.  Arguments:
remaining characters, current in-dialogue mode, accumulated buffer.  Returns
the produced spans and the final mode. -/
def classifyAux : List Char → Bool → List Char → List Span × Bool
  | [], mode, buffer =>
      (if buffer.isEmpty then [] else [⟨buffer, mode⟩], mode)
  | c :: rest, true, buffer =>
      if closeQuotes.contains c && isBoundary rest then
        (⟨buffer ++ [c], true⟩ :: (classifyAux rest false []).1,
         (classifyAux rest false []).2)
      else
        classifyAux rest true (buffer ++ [c])
  | c :: rest, false, buffer =>
      if openQuotes.contains c then
        if buffer.isEmpty then
          classifyAux rest true [c]
        else
          (⟨buffer, false⟩ :: (classifyAux rest true [c]).1,
           (classifyAux rest true [c]).2)
      else
        classifyAux rest false (buffer ++ [c])

/-- processTextForDialogue, main.ts lines 119-170: classify one chunk with an
incoming in-dialogue flag, returning the spans and the outgoing flag. -/
def processTextForDialogue (text : List Char) (inDialog : Bool) :
    List Span × Bool :=
  classifyAux text inDialog []

/-- Concatenation of the text fields of a list of spans. -/
def concatTexts : List Span → List Char
  | [] => []
  | s :: rest => s.text ++ concatTexts rest

/-- The straight single-quote character, U+0027. -/
def straightSingleQuote : Char := Char.ofNat 39

/-- Absolute position intervals of a span list laid out from offset `o` by
accumulating span lengths. -/
def spanIntervals : Nat → List Span → List (Nat × Nat)
  | _, [] => []
  | o, s :: rest => (o, o + s.text.length) :: spanIntervals (o + s.text.length) rest

/-- JavaScript string conversion of the produced array items, as performed by
`newContent.text.join('')` in highlightDialog (main.ts line 110): every item
pushed by processTextForDialogue is an HTMLSpanElement, and Array.join
converts each element to the string "[object HTMLSpanElement]" rather than to
its text content. -/
def joinRendered : List Span → List Char
  | [] => []
  | _ :: rest => "[object HTMLSpanElement]".data ++ joinRendered rest

/-- The per-leaf replacement condition of highlightDialog (main.ts lines
110-115): the leaf is replaced exactly when the joined string differs from
the leaf's text. -/
def leafReplaced (text : List Char) (inDialog : Bool) : Bool :=
  !(joinRendered (processTextForDialogue text inDialog).1 == text)

/-- An absolute-offset style range emitted by the viewport driver
buildDecorations: `Decoration.mark({class}).range(start, stop)` with class
"dialogue-text" ↦ `isDialogue = true`, "non-dialogue-text" ↦ `false`. -/
structure StyleRange where
  start : Nat
  stop : Nat
  isDialogue : Bool
deriving DecidableEq

/-- A document line with its absolute offsets: `lfrom = line.from`,
`lto = line.to`, `ltext = line.text` of the editor interface. -/
structure Line where
  lfrom : Nat
  lto : Nat
  ltext : List Char
deriving DecidableEq

/-- Lay out a list of line texts starting at a given offset; consecutive
lines are separated by one newline character, so the next line starts at
`lto + 1`. -/
def mkLines : Nat → List (List Char) → List Line
  | _, [] => []
  | off, t :: rest => ⟨off, off + t.length, t⟩ :: mkLines (off + t.length + 1) rest

/-- The lines of a document (a list of line texts), with offsets from 0. -/
def docLines (doc : List (List Char)) : List Line :=
  mkLines 0 doc

/-- The character loop of buildDecorations (main.ts lines 250-269).
Arguments: remaining characters of the line, absolute position of the next
character, current `bufferStart`, current quote stack (head = top of stack,
pairs of glyph and absolute push position).  Returns the emitted ranges in
builder order, the final `bufferStart` and the final stack. -/
def procChars : List Char → Nat → Nat → List (Char × Nat) →
    List StyleRange × Nat × List (Char × Nat)
  | [], _, bufferStart, stack => ([], bufferStart, stack)
  | c :: rest, p, bufferStart, [] =>
      if openQuotes.contains c then
        ((if bufferStart < p then [⟨bufferStart, p, false⟩] else []) ++
           (procChars rest (p + 1) (p + 1) ((c, p) :: [])).1,
         (procChars rest (p + 1) (p + 1) ((c, p) :: [])).2)
      else
        procChars rest (p + 1) bufferStart []
  | c :: rest, p, bufferStart, (q, qpos) :: stackRest =>
      if openQuotes.contains c then
        ((if bufferStart < p then [⟨bufferStart, p, false⟩] else []) ++
           (procChars rest (p + 1) (p + 1) ((c, p) :: (q, qpos) :: stackRest)).1,
         (procChars rest (p + 1) (p + 1) ((c, p) :: (q, qpos) :: stackRest)).2)
      else if closeQuotes.contains c &&
          (openQuotes.indexOf q == closeQuotes.indexOf c) then
        (⟨qpos, p + 1, true⟩ :: (procChars rest (p + 1) (p + 1) stackRest).1,
         (procChars rest (p + 1) (p + 1) stackRest).2)
      else
        procChars rest (p + 1) bufferStart ((q, qpos) :: stackRest)

/-- One line of buildDecorations: run the character loop with `bufferStart`
reset to `line.from` (main.ts line 248) and flush the tail of the line as a
non-dialogue range when `bufferStart < line.to` (main.ts lines 271-273). -/
def procLine (l : Line) (stack : List (Char × Nat)) :
    List StyleRange × List (Char × Nat) :=
  ((procChars l.ltext l.lfrom l.lfrom stack).1 ++
     (if (procChars l.ltext l.lfrom l.lfrom stack).2.1 < l.lto then
        [⟨(procChars l.ltext l.lfrom l.lfrom stack).2.1, l.lto, false⟩]
      else []),
   (procChars l.ltext l.lfrom l.lfrom stack).2.2)

/-- The inner loop of buildDecorations over one visible range (main.ts lines
245-276): starting at `pos = from`, while `pos ≤ to`, look up the line at
`pos`, process it, and continue at `line.to + 1`.  The line lookup scans the
(ascending) line list for the line whose offsets contain `pos`. -/
def runLinesFrom : List Line → Nat → Nat → List (Char × Nat) →
    List StyleRange × List (Char × Nat)
  | [], _, _, stack => ([], stack)
  | l :: rest, pos, tto, stack =>
      if pos ≤ tto then
        if l.lfrom ≤ pos ∧ pos ≤ l.lto then
          ((procLine l stack).1 ++
             (runLinesFrom rest (l.lto + 1) tto (procLine l stack).2).1,
           (runLinesFrom rest (l.lto + 1) tto (procLine l stack).2).2)
        else
          runLinesFrom rest pos tto stack
      else ([], stack)

/-- The outer loop of buildDecorations over the visible ranges (main.ts line
244); the quote stack is declared outside both loops and carried across
ranges. -/
def runRanges : List (Nat × Nat) → List Line → List (Char × Nat) →
    List StyleRange × List (Char × Nat)
  | [], _, stack => ([], stack)
  | r :: rs, ls, stack =>
      ((runLinesFrom ls r.1 r.2 stack).1 ++
         (runRanges rs ls (runLinesFrom ls r.1 r.2 stack).2).1,
       (runRanges rs ls (runLinesFrom ls r.1 r.2 stack).2).2)

/-- buildDecorations, main.ts lines 233-280: with the fade feature disabled
the result is empty (Decoration.none); otherwise the nested loops emit the
builder list.  `Decoration.set(builder, true)` only sorts the builder, so we
reason on the list in emission order. -/
def buildDecorations (fadeEnabled : Bool) (doc : List (List Char))
    (ranges : List (Nat × Nat)) : List StyleRange :=
  if fadeEnabled then (runRanges ranges (docLines doc) []).1 else []

/-- The lines of a range, from the line containing its start offset through
the line containing its end offset. -/
def rangeLines (ls : List Line) (f t : Nat) : List Line :=
  ls.filter (fun l => decide (f ≤ l.lto ∧ l.lfrom ≤ t))

/-- Absolute style ranges obtained by laying out classifier spans from a
line-start offset, accumulating span lengths. -/
def spansToRanges : Nat → List Span → List StyleRange
  | _, [] => []
  | o, s :: rest =>
      ⟨o, o + s.text.length, s.isDialogue⟩ :: spansToRanges (o + s.text.length) rest

/-- Modelled from the spec: the per-line step of the viewport driver as
§4.3's primary algorithm describes it — run the shared classifier on the
line's text with the carried flag and map each returned span onto an
absolute offset range by accumulating span lengths from the line's start
offset.  This algorithm does not appear in buildDecorations; it is defined
here only to compare the code against the claim. -/
def specClassifierLines : List Line → Bool → List StyleRange × Bool
  | [], flag => ([], flag)
  | l :: rest, flag =>
      (spansToRanges l.lfrom (processTextForDialogue l.ltext flag).1 ++
         (specClassifierLines rest (processTextForDialogue l.ltext flag).2).1,
       (specClassifierLines rest (processTextForDialogue l.ltext flag).2).2)

/-- Modelled from the spec: the classifier-driven viewport driver of §4.3's
primary algorithm — iterate the visible ranges in order, iterate each
range's lines in order, classify each line with the carried flag, and carry
the flag across line and range boundaries (initialized to false). -/
def specClassifierRanges : List (Nat × Nat) → List Line → Bool →
    List StyleRange × Bool
  | [], _, flag => ([], flag)
  | r :: rs, ls, flag =>
      ((specClassifierLines (rangeLines ls r.1 r.2) flag).1 ++
         (specClassifierRanges rs ls
            (specClassifierLines (rangeLines ls r.1 r.2) flag).2).1,
       (specClassifierRanges rs ls
          (specClassifierLines (rangeLines ls r.1 r.2) flag).2).2)

/-- Modelled from the spec: the whole classifier-driven viewport driver. -/
def specClassifierDriver (doc : List (List Char))
    (ranges : List (Nat × Nat)) : List StyleRange :=
  (specClassifierRanges ranges (docLines doc) false).1

/-- Decidable coverage test: does some emitted range cover position `p`? -/
def covers (out : List StyleRange) (p : Nat) : Bool :=
  out.any (fun sr => decide (sr.start ≤ p ∧ p < sr.stop))

/-- Is the character one of the two curly glyph pairs? -/
def isCurlyGlyph (c : Char) : Bool :=
  c == '“' || c == '‘' || c == '”' || c == '’'

/-- Contiguity invariant of a laid-out line list: the first line starts at
the given offset, every line's end is at or after its start, and each
following line starts one position (the newline) after the previous end. -/
def Contig : Nat → List Line → Prop
  | _, [] => True
  | off, l :: rest => l.lfrom = off ∧ l.lfrom ≤ l.lto ∧ Contig (l.lto + 1) rest

/-- Processing a list of lines in order, threading the quote stack. -/
def foldLines : List Line → List (Char × Nat) →
    List StyleRange × List (Char × Nat)
  | [], stack => ([], stack)
  | l :: rest, stack =>
      ((procLine l stack).1 ++ (foldLines rest (procLine l stack).2).1,
       (foldLines rest (procLine l stack).2).2)

/-- The stack-based driver in compositional form: iterate the ranges in
order; for each range, process its lines (start line through end line) in
order with procLine; the quote stack is carried across line and range
boundaries. -/
def specStackRanges : List (Nat × Nat) → List Line → List (Char × Nat) →
    List StyleRange × List (Char × Nat)
  | [], _, stack => ([], stack)
  | r :: rs, ls, stack =>
      ((foldLines (rangeLines ls r.1 r.2) stack).1 ++
         (specStackRanges rs ls (foldLines (rangeLines ls r.1 r.2) stack).2).1,
       (specStackRanges rs ls (foldLines (rangeLines ls r.1 r.2) stack).2).2)

/-- The whole stack-based driver in compositional (fold) form. -/
def specStackDriver (doc : List (List Char)) (ranges : List (Nat × Nat)) :
    List StyleRange :=
  (specStackRanges ranges (docLines doc) []).1

/-- Is the character a member of either glyph table? -/
def isQuoteGlyph (c : Char) : Bool :=
  openQuotes.contains c || closeQuotes.contains c

/-- One non-dialogue range per nonempty line. -/
def linesToRanges (ls : List Line) : List StyleRange :=
  ls.filterMap
    (fun l => if l.lfrom < l.lto then some ⟨l.lfrom, l.lto, false⟩ else none)

/- Unfolding lemmas for the branches of classifyAux. -/

lemma classifyAux_nil (mode : Bool) (buffer : List Char) :
    classifyAux [] mode buffer =
      (if buffer.isEmpty then [] else [⟨buffer, mode⟩], mode) := rfl

lemma classifyAux_close {c : Char} {rest : List Char}
    (h : (closeQuotes.contains c && isBoundary rest) = true)
    (buffer : List Char) :
    classifyAux (c :: rest) true buffer =
      (⟨buffer ++ [c], true⟩ :: (classifyAux rest false []).1,
       (classifyAux rest false []).2) := by
  simp only [classifyAux, h, if_true]

lemma classifyAux_keep {c : Char} {rest : List Char}
    (h : (closeQuotes.contains c && isBoundary rest) = false)
    (buffer : List Char) :
    classifyAux (c :: rest) true buffer =
      classifyAux rest true (buffer ++ [c]) := by
  simp only [classifyAux, h, Bool.false_eq_true, if_false]

lemma classifyAux_open_nil {c : Char} {rest : List Char}
    (h : openQuotes.contains c = true) :
    classifyAux (c :: rest) false [] = classifyAux rest true [c] := by
  simp only [classifyAux, h, if_true, List.isEmpty_nil]

lemma classifyAux_open_cons {c : Char} {rest : List Char}
    (h : openQuotes.contains c = true) {buffer : List Char}
    (hb : buffer.isEmpty = false) :
    classifyAux (c :: rest) false buffer =
      (⟨buffer, false⟩ :: (classifyAux rest true [c]).1,
       (classifyAux rest true [c]).2) := by
  simp only [classifyAux, h, if_true, hb, Bool.false_eq_true, if_false]

lemma classifyAux_plain {c : Char} {rest : List Char}
    (h : openQuotes.contains c = false) (buffer : List Char) :
    classifyAux (c :: rest) false buffer =
      classifyAux rest false (buffer ++ [c]) := by
  simp only [classifyAux, h, Bool.false_eq_true, if_false]

/-- Concatenating the produced span texts restores the buffer followed by the
remaining input. -/
lemma classifyAux_concat :
    ∀ (text : List Char) (mode : Bool) (buffer : List Char),
      concatTexts (classifyAux text mode buffer).1 = buffer ++ text := by
  intro text
  induction text with
  | nil =>
      intro mode buffer
      rw [classifyAux_nil]
      by_cases hb : buffer.isEmpty = true
      · simp [concatTexts, List.isEmpty_iff.mp hb]
      · simp [hb, concatTexts]
  | cons c rest ih =>
      intro mode buffer
      cases mode with
      | true =>
          by_cases h : (closeQuotes.contains c && isBoundary rest) = true
          · rw [classifyAux_close h]
            simp [concatTexts, ih]
          · have h' : (closeQuotes.contains c && isBoundary rest) = false := by
              simpa using h
            rw [classifyAux_keep h']
            simp [ih]
      | false =>
          by_cases h : openQuotes.contains c = true
          · by_cases hb : buffer.isEmpty = true
            · rw [List.isEmpty_iff.mp hb, classifyAux_open_nil h]
              simp [ih]
            · have hb' : buffer.isEmpty = false := by simpa using hb
              rw [classifyAux_open_cons h hb']
              simp [concatTexts, ih]
          · have h' : openQuotes.contains c = false := by simpa using h
            rw [classifyAux_plain h']
            simp [ih]

/-- C2: for every input chunk and incoming flag, concatenating the text
fields of the spans returned by processTextForDialogue yields exactly the
input chunk. -/
theorem processTextForDialogue_reconstruction
    (text : List Char) (f : Bool) :
    concatTexts (processTextForDialogue text f).1 = text := by
  simpa using classifyAux_concat text f []

/-- C9: the classifier is a total function (it is defined by structural
recursion over arbitrary input, signalling no error), and on the empty chunk
it returns an empty span sequence together with an outgoing flag equal to the
incoming flag. -/
theorem processTextForDialogue_empty_chunk (f : Bool) :
    processTextForDialogue [] f = ([], f) := rfl

/-- C7: cross-chunk carry of the in-dialogue flag on the spec's worked
example: classifying the first chunk leaves the flag raised, and feeding the
raised flag into the second chunk closes the quotation there. -/
theorem classifier_cross_chunk_carry :
    processTextForDialogue "He said \"hello".data false =
      ([⟨"He said ".data, false⟩, ⟨"\"hello".data, true⟩], true) ∧
    processTextForDialogue "there.\" and left.".data true =
      ([⟨"there.\"".data, true⟩, ⟨" and left.".data, false⟩], false) := by
  constructor
  · rfl
  · rfl

/-- C4: while in dialogue mode, a close-glyph closes the quotation (the
buffer including the glyph is flushed as a dialogue span and the mode flips
to non-dialogue) exactly when it is the last character of the chunk or the
next character is a space, period or comma; otherwise it is merely appended
to the dialogue buffer and the quotation stays open. -/
theorem closeGlyph_boundary_rule (g : Char) (rest buffer : List Char)
    (hg : closeQuotes.contains g = true) :
    (isBoundary rest = true →
      classifyAux (g :: rest) true buffer =
        (⟨buffer ++ [g], true⟩ :: (classifyAux rest false []).1,
         (classifyAux rest false []).2)) ∧
    (isBoundary rest = false →
      classifyAux (g :: rest) true buffer =
        classifyAux rest true (buffer ++ [g])) := by
  constructor
  · intro hb
    exact classifyAux_close (by rw [hg, hb]; rfl) buffer
  · intro hb
    exact classifyAux_keep (by rw [hg, hb]; rfl) buffer

/-- Witness for closeGlyph_boundary_rule at concrete inputs: the curly close
quote before a space closes, and before a letter it does not. -/
theorem closeGlyph_boundary_rule_witness :
    classifyAux ('”' :: [' ', 'x']) true ['a'] =
      (⟨['a', '”'], true⟩ :: (classifyAux [' ', 'x'] false []).1,
       (classifyAux [' ', 'x'] false []).2) ∧
    classifyAux ('”' :: ['x']) true ['a'] =
      classifyAux ['x'] true ['a', '”'] := by
  constructor
  · exact (closeGlyph_boundary_rule '”' [' ', 'x'] ['a'] (by decide)).1
      (by decide)
  · exact (closeGlyph_boundary_rule '”' ['x'] ['a'] (by decide)).2
      (by decide)

/-- C6 counterexample: the straight single-quote is a member of neither the
open-glyph table nor the close-glyph table of the classifier (main.ts lines
120-121), so it can neither open nor close a quotation. -/
theorem straight_single_quote_not_in_tables :
    openQuotes.contains straightSingleQuote = false ∧
    closeQuotes.contains straightSingleQuote = false := by
  decide

/-- C6 amended: it is the straight double-quote that is a member of both
glyph tables (self-pairing); in the default classifier policy it opens a
quotation when not in dialogue and closes one subject to the boundary
rule. -/
theorem straight_double_quote_self_pairing :
    openQuotes.contains '"' = true ∧
    closeQuotes.contains '"' = true ∧
    (∀ rest : List Char,
      classifyAux ('"' :: rest) false [] = classifyAux rest true ['"']) ∧
    (∀ (rest buffer : List Char), isBoundary rest = true →
      classifyAux ('"' :: rest) true buffer =
        (⟨buffer ++ ['"'], true⟩ :: (classifyAux rest false []).1,
         (classifyAux rest false []).2)) := by
  refine ⟨by decide, by decide, ?_, ?_⟩
  · intro rest
    exact classifyAux_open_nil (by decide)
  · intro rest buffer hb
    exact classifyAux_close (by rw [hb]; decide) buffer

/-- Witness for straight_double_quote_self_pairing at a concrete input. -/
theorem straight_double_quote_self_pairing_witness :
    classifyAux ('"' :: ['h', 'i']) false [] =
      classifyAux ['h', 'i'] true ['"'] ∧
    classifyAux ('"' :: [' ']) true ['h'] =
      (⟨['h', '"'], true⟩ :: (classifyAux [' '] false []).1,
       (classifyAux [' '] false []).2) := by
  constructor
  · exact straight_double_quote_self_pairing.2.2.1 ['h', 'i']
  · exact straight_double_quote_self_pairing.2.2.2 [' '] ['h'] (by decide)

/-- Every span flushed by the classifier carries a nonempty text: dialogue
flushes include at least the close glyph, and the non-dialogue and trailing
flushes are guarded by a buffer-nonempty test (main.ts lines 141, 155). -/
lemma classifyAux_nonempty :
    ∀ (text : List Char) (mode : Bool) (buffer : List Char),
      ∀ s ∈ (classifyAux text mode buffer).1, s.text ≠ [] := by
  intro text
  induction text with
  | nil =>
      intro mode buffer s hs
      rw [classifyAux_nil] at hs
      by_cases hb : buffer.isEmpty = true
      · simp [hb] at hs
      · have hb' : buffer.isEmpty = false := by simpa using hb
        simp only [hb', Bool.false_eq_true, if_false, List.mem_singleton] at hs
        subst hs
        intro hc
        exact hb (List.isEmpty_iff.mpr hc)
  | cons c rest ih =>
      intro mode buffer s hs
      cases mode with
      | true =>
          by_cases h : (closeQuotes.contains c && isBoundary rest) = true
          · rw [classifyAux_close h] at hs
            rcases List.mem_cons.mp hs with h1 | h1
            · subst h1; simp
            · exact ih false [] s h1
          · have h' : (closeQuotes.contains c && isBoundary rest) = false := by
              simpa using h
            rw [classifyAux_keep h'] at hs
            exact ih true (buffer ++ [c]) s hs
      | false =>
          by_cases h : openQuotes.contains c = true
          · by_cases hb : buffer.isEmpty = true
            · rw [List.isEmpty_iff.mp hb, classifyAux_open_nil h] at hs
              exact ih true [c] s hs
            · have hb' : buffer.isEmpty = false := by simpa using hb
              rw [classifyAux_open_cons h hb'] at hs
              rcases List.mem_cons.mp hs with h1 | h1
              · subst h1
                intro hc
                exact hb (List.isEmpty_iff.mpr hc)
              · exact ih true [c] s h1
          · have h' : openQuotes.contains c = false := by simpa using h
            rw [classifyAux_plain h'] at hs
            exact ih false (buffer ++ [c]) s hs

/-- Base case of the alternation invariant: the trailing flush produces at
most one span, tagged with the current mode. -/
lemma classifyAux_alternation_nil (mode : Bool) (buffer : List Char) :
    List.Chain' (fun a b : Span => a.isDialogue ≠ b.isDialogue)
        (classifyAux [] mode buffer).1 ∧
    (∀ s, ((classifyAux [] mode buffer).1.head? = some s) →
        (mode = true → s.isDialogue = true) ∧
        (mode = false → buffer.isEmpty = false → s.isDialogue = false)) := by
  rw [classifyAux_nil]
  by_cases hb : buffer.isEmpty = true
  · simp [hb]
  · have hb' : buffer.isEmpty = false := by simpa using hb
    simp only [hb', Bool.false_eq_true, if_false]
    refine ⟨List.chain'_singleton _, ?_⟩
    intro s hs
    simp only [List.head?] at hs
    injection hs with hs
    subst hs
    exact ⟨fun h => h, fun h _ => h⟩

/-- Alternation invariant of the classifier, by induction on a length bound:
the produced spans alternate in classification, and the head span (when one
exists) is a dialogue span when the call starts in dialogue mode, and a
non-dialogue span when the call starts in non-dialogue mode with a nonempty
buffer. -/
lemma classifyAux_alternation :
    ∀ (n : Nat) (text : List Char), text.length ≤ n →
      ∀ (mode : Bool) (buffer : List Char),
        List.Chain' (fun a b : Span => a.isDialogue ≠ b.isDialogue)
            (classifyAux text mode buffer).1 ∧
        (∀ s, ((classifyAux text mode buffer).1.head? = some s) →
            (mode = true → s.isDialogue = true) ∧
            (mode = false → buffer.isEmpty = false → s.isDialogue = false)) := by
  intro n
  induction n with
  | zero =>
      intro text hlen mode buffer
      have ht : text = [] := List.length_eq_zero.mp (Nat.le_zero.mp hlen)
      subst ht
      exact classifyAux_alternation_nil mode buffer
  | succ n ihn =>
      intro text hlen mode buffer
      cases text with
      | nil => exact classifyAux_alternation_nil mode buffer
      | cons c rest =>
          have hr : rest.length ≤ n := by
            simpa using Nat.succ_le_succ_iff.mp (by simpa using hlen)
          cases mode with
          | true =>
              by_cases h : (closeQuotes.contains c && isBoundary rest) = true
              · rw [classifyAux_close h]
                have hbd : isBoundary rest = true := by
                  simp only [Bool.and_eq_true] at h
                  exact h.2
                have htail :
                    List.Chain' (fun a b : Span => a.isDialogue ≠ b.isDialogue)
                        (classifyAux rest false []).1 ∧
                    (∀ y, ((classifyAux rest false []).1.head? = some y) →
                        y.isDialogue = false) := by
                  cases rest with
                  | nil =>
                      rw [classifyAux_nil]
                      exact ⟨List.chain'_nil, by intro y hy; simp at hy⟩
                  | cons b rest2 =>
                      have hbs : b = ' ' ∨ b = '.' ∨ b = ',' := by
                        simpa [isBoundary, or_assoc] using hbd
                      have hbo : openQuotes.contains b = false := by
                        rcases hbs with rfl | rfl | rfl <;> decide
                      rw [classifyAux_plain hbo]
                      have hr2 : rest2.length ≤ n :=
                        Nat.le_of_succ_le (by simpa using hr)
                      obtain ⟨h1, h2⟩ := ihn rest2 hr2 false ([] ++ [b])
                      refine ⟨h1, fun y hy => ?_⟩
                      exact (h2 y hy).2 rfl (by simp)
                refine ⟨?_, ?_⟩
                · refine List.chain'_cons'.mpr ⟨?_, htail.1⟩
                  intro y hy
                  have := htail.2 y hy
                  simp [this]
                · intro s hs
                  simp only [List.head?] at hs
                  injection hs with hs
                  subst hs
                  exact ⟨fun _ => rfl, fun hf => by simp at hf⟩
              · have h' : (closeQuotes.contains c && isBoundary rest) = false := by
                  simpa using h
                rw [classifyAux_keep h']
                obtain ⟨h1, h2⟩ := ihn rest hr true (buffer ++ [c])
                refine ⟨h1, fun s hs => ⟨(h2 s hs).1, fun hf => by simp at hf⟩⟩
          | false =>
              by_cases h : openQuotes.contains c = true
              · by_cases hb : buffer.isEmpty = true
                · rw [List.isEmpty_iff.mp hb, classifyAux_open_nil h]
                  obtain ⟨h1, h2⟩ := ihn rest hr true [c]
                  refine ⟨h1, fun s hs => ⟨fun hf => by simp at hf,
                    fun _ hf => by simp at hf⟩⟩
                · have hb' : buffer.isEmpty = false := by simpa using hb
                  rw [classifyAux_open_cons h hb']
                  obtain ⟨h1, h2⟩ := ihn rest hr true [c]
                  refine ⟨?_, ?_⟩
                  · refine List.chain'_cons'.mpr ⟨?_, h1⟩
                    intro y hy
                    have := (h2 y hy).1 rfl
                    simp [this]
                  · intro s hs
                    simp only [List.head?] at hs
                    injection hs with hs
                    subst hs
                    exact ⟨fun hf => by simp at hf, fun _ _ => rfl⟩
              · have h' : openQuotes.contains c = false := by simpa using h
                rw [classifyAux_plain h']
                obtain ⟨h1, h2⟩ := ihn rest hr false (buffer ++ [c])
                refine ⟨h1, fun s hs => ⟨fun hf => by simp at hf,
                  fun _ _ => (h2 s hs).2 rfl (by simp)⟩⟩

/-- Consecutive span intervals are adjacent: each interval starts where the
previous one stops. -/
lemma spanIntervals_chain :
    ∀ (spans : List Span) (o : Nat),
      List.Chain' (fun a b : Nat × Nat => a.2 = b.1) (spanIntervals o spans) := by
  intro spans
  induction spans with
  | nil => intro o; exact List.chain'_nil
  | cons s rest ih =>
      intro o
      refine List.chain'_cons'.mpr ⟨?_, ih (o + s.text.length)⟩
      intro y hy
      cases rest with
      | nil => simp [spanIntervals] at hy
      | cons s2 r2 =>
          simp only [spanIntervals, List.head?] at hy
          injection hy with hy
          subst hy
          rfl

/-- Each span interval is nonempty when every span text is nonempty. -/
lemma spanIntervals_pos :
    ∀ (spans : List Span) (o : Nat), (∀ s ∈ spans, s.text ≠ []) →
      ∀ iv ∈ spanIntervals o spans, iv.1 < iv.2 := by
  intro spans
  induction spans with
  | nil => intro o _ iv hiv; simp [spanIntervals] at hiv
  | cons s rest ih =>
      intro o hne iv hiv
      rcases List.mem_cons.mp hiv with h1 | h1
      · subst h1
        have : s.text ≠ [] := hne s (List.mem_cons_self s rest)
        have : 0 < s.text.length := List.length_pos.mpr this
        simpa using this
      · exact ih (o + s.text.length) (fun t ht => hne t (List.mem_cons_of_mem s ht))
          iv h1

/-- C5: for every chunk and incoming flag, the returned spans all have
nonempty text, adjacent spans never share a classification (maximal runs),
and laying the spans out from any base offset yields intervals that are
adjacent (each starts where the previous stops) and strictly increasing, so
the spans are in left-to-right order and never overlap. -/
theorem processTextForDialogue_span_invariants
    (text : List Char) (f : Bool) (o : Nat) :
    (∀ s ∈ (processTextForDialogue text f).1, s.text ≠ []) ∧
    List.Chain' (fun a b : Span => a.isDialogue ≠ b.isDialogue)
        (processTextForDialogue text f).1 ∧
    List.Chain' (fun a b : Nat × Nat => a.2 = b.1)
        (spanIntervals o (processTextForDialogue text f).1) ∧
    (∀ iv ∈ spanIntervals o (processTextForDialogue text f).1, iv.1 < iv.2) := by
  refine ⟨classifyAux_nonempty text f [], ?_, ?_, ?_⟩
  · exact (classifyAux_alternation text.length text (Nat.le_refl _) f []).1
  · exact spanIntervals_chain _ o
  · exact spanIntervals_pos _ o (classifyAux_nonempty text f [])

/-- C8: evaluation at the failing input. The leaf text "hello" classifies as
a single all-non-dialogue span, yet highlightDialog's condition still
replaces the leaf, because the join it compares against the text converts
each produced span element to "[object HTMLSpanElement]" instead of its text
content. -/
theorem highlightDialog_replaces_single_span_leaf :
    (processTextForDialogue "hello".data false).1 = [⟨"hello".data, false⟩] ∧
    leafReplaced "hello".data false = true := by
  constructor
  · rfl
  · rfl

/- Branch lemmas for procChars.  The open-glyph test (main.ts line 255) is
checked first; the close branch (line 261) fires only when the character is
not an open glyph, the stack is nonempty, and the top-of-stack glyph's open
index equals the character's close index; otherwise the character is
skipped with bufferStart unchanged. -/

lemma procChars_open {c : Char} (rest : List Char) (p bs : Nat)
    (stack : List (Char × Nat)) (h : openQuotes.contains c = true) :
    procChars (c :: rest) p bs stack =
      ((if bs < p then [⟨bs, p, false⟩] else []) ++
         (procChars rest (p + 1) (p + 1) ((c, p) :: stack)).1,
       (procChars rest (p + 1) (p + 1) ((c, p) :: stack)).2) := by
  cases stack with
  | nil => simp only [procChars, h, if_true]
  | cons top stackRest =>
      cases top with
      | mk q qpos => simp only [procChars, h, if_true]

lemma procChars_skip_nil {c : Char} (rest : List Char) (p bs : Nat)
    (h : openQuotes.contains c = false) :
    procChars (c :: rest) p bs [] = procChars rest (p + 1) bs [] := by
  simp only [procChars, h, Bool.false_eq_true, if_false]

lemma procChars_pop {c q : Char} (rest : List Char) (p bs qpos : Nat)
    (stackRest : List (Char × Nat)) (ho : openQuotes.contains c = false)
    (hm : (closeQuotes.contains c &&
        (openQuotes.indexOf q == closeQuotes.indexOf c)) = true) :
    procChars (c :: rest) p bs ((q, qpos) :: stackRest) =
      (⟨qpos, p + 1, true⟩ :: (procChars rest (p + 1) (p + 1) stackRest).1,
       (procChars rest (p + 1) (p + 1) stackRest).2) := by
  simp only [procChars, ho, Bool.false_eq_true, if_false, hm, if_true]

lemma procChars_skip_cons {c q : Char} (rest : List Char) (p bs qpos : Nat)
    (stackRest : List (Char × Nat)) (ho : openQuotes.contains c = false)
    (hm : (closeQuotes.contains c &&
        (openQuotes.indexOf q == closeQuotes.indexOf c)) = false) :
    procChars (c :: rest) p bs ((q, qpos) :: stackRest) =
      procChars rest (p + 1) bs ((q, qpos) :: stackRest) := by
  simp only [procChars, ho, Bool.false_eq_true, if_false, hm]

/-- C1 counterexample: on the single visible line `"hi" x`, the driver
described by the claim (classifier per line with the carried flag) emits a
dialogue range, but buildDecorations emits none: its stack-based matcher
treats the second straight double-quote as another opener, so the code does
not run the shared span classifier. -/
theorem buildDecorations_differs_from_classifier_driver :
    (∃ sr ∈ specClassifierDriver ["\"hi\" x".data] [(0, 6)],
        sr.isDialogue = true) ∧
    (∀ sr ∈ buildDecorations true ["\"hi\" x".data] [(0, 6)],
        sr.isDialogue = false) ∧
    buildDecorations true ["\"hi\" x".data] [(0, 6)] ≠
      specClassifierDriver ["\"hi\" x".data] [(0, 6)] := by
  refine ⟨⟨⟨0, 4, true⟩, ?_, rfl⟩, ?_, ?_⟩
  · decide
  · decide
  · decide

/-- C3 counterexample: the emitted ranges do not exactly cover the supplied
window.  On the line `a"b` with visible range [0,3), the unmatched straight
double-quote at position 1 is covered by no emitted range (a gap); and on the
two lines `“a` / `b” c` with visible range [0,7), position 1 is covered by
two emitted ranges (an overlap): the non-dialogue tail of the first line and
the cross-line dialogue range. -/
theorem buildDecorations_coverage_gap :
    (covers (buildDecorations true ["a\"b".data] [(0, 3)]) 1 = false ∧
      (0 : Nat) ≤ 1 ∧ 1 < 3) ∧
    ((buildDecorations true ["“a".data, "b” c".data] [(0, 7)]).countP
        (fun sr => decide (sr.start ≤ 1 ∧ 1 < sr.stop)) = 2) := by
  refine ⟨⟨?_, ?_, ?_⟩, ?_⟩
  · decide
  · decide
  · decide
  · decide

/-- Under curly-free text the character loop never emits a dialogue range:
the straight double-quote is caught by the open-glyph test first, so the
close branch (the only emitter of dialogue ranges) is reached only by curly
close glyphs. -/
lemma procChars_noCurly_nonDialogue :
    ∀ (text : List Char) (p bs : Nat) (stack : List (Char × Nat)),
      (∀ c ∈ text, isCurlyGlyph c = false) →
      ∀ sr ∈ (procChars text p bs stack).1, sr.isDialogue = false := by
  intro text
  induction text with
  | nil => intro p bs stack _ sr hsr; simp [procChars] at hsr
  | cons c rest ih =>
      intro p bs stack hfree sr hsr
      have hc : isCurlyGlyph c = false := hfree c (List.mem_cons_self c rest)
      have hrest : ∀ x ∈ rest, isCurlyGlyph x = false :=
        fun x hx => hfree x (List.mem_cons_of_mem c hx)
      by_cases ho : openQuotes.contains c = true
      · rw [procChars_open rest p bs stack ho] at hsr
        rcases List.mem_append.mp hsr with h1 | h1
        · by_cases hlt : bs < p
          · simp only [if_pos hlt, List.mem_singleton] at h1
            subst h1; rfl
          · simp [if_neg hlt] at h1
        · exact ih (p + 1) (p + 1) ((c, p) :: stack) hrest sr h1
      · have ho' : openQuotes.contains c = false := by simpa using ho
        have hcl' : closeQuotes.contains c = false := by
          by_cases hcl : closeQuotes.contains c = true
          · exfalso
            have : c = '"' ∨ c = '”' ∨ c = '’' := by
              simpa [closeQuotes, or_assoc] using hcl
            rcases this with rfl | rfl | rfl
            · simp [openQuotes] at ho'
            · simp [isCurlyGlyph] at hc
            · simp [isCurlyGlyph] at hc
          · simpa using hcl
        cases stack with
        | nil =>
            rw [procChars_skip_nil rest p bs ho'] at hsr
            exact ih (p + 1) bs [] hrest sr hsr
        | cons top stackRest =>
            cases top with
            | mk q qpos =>
                rw [procChars_skip_cons rest p bs qpos stackRest ho'
                  (by rw [hcl']; rfl)] at hsr
                exact ih (p + 1) bs ((q, qpos) :: stackRest) hrest sr hsr

/-- procLine preserves the no-dialogue property for curly-free lines. -/
lemma procLine_noCurly_nonDialogue (l : Line) (stack : List (Char × Nat))
    (hfree : ∀ c ∈ l.ltext, isCurlyGlyph c = false) :
    ∀ sr ∈ (procLine l stack).1, sr.isDialogue = false := by
  intro sr hsr
  rcases List.mem_append.mp hsr with h1 | h1
  · exact procChars_noCurly_nonDialogue l.ltext l.lfrom l.lfrom stack hfree sr h1
  · by_cases hlt : (procChars l.ltext l.lfrom l.lfrom stack).2.1 < l.lto
    · simp only [if_pos hlt, List.mem_singleton] at h1
      subst h1; rfl
    · simp [if_neg hlt] at h1

/-- runLinesFrom preserves the no-dialogue property when every line in the
list is curly-free. -/
lemma runLinesFrom_noCurly_nonDialogue :
    ∀ (ls : List Line) (pos tto : Nat) (stack : List (Char × Nat)),
      (∀ l ∈ ls, ∀ c ∈ l.ltext, isCurlyGlyph c = false) →
      ∀ sr ∈ (runLinesFrom ls pos tto stack).1, sr.isDialogue = false := by
  intro ls
  induction ls with
  | nil => intro pos tto stack _ sr hsr; simp [runLinesFrom] at hsr
  | cons l rest ih =>
      intro pos tto stack hfree sr hsr
      have hl := hfree l (List.mem_cons_self l rest)
      have hrest : ∀ l' ∈ rest, ∀ c ∈ l'.ltext, isCurlyGlyph c = false :=
        fun l' h' => hfree l' (List.mem_cons_of_mem l h')
      rw [runLinesFrom] at hsr
      by_cases h1 : pos ≤ tto
      · simp only [if_pos h1] at hsr
        by_cases h2 : l.lfrom ≤ pos ∧ pos ≤ l.lto
        · simp only [if_pos h2] at hsr
          rcases List.mem_append.mp hsr with h3 | h3
          · exact procLine_noCurly_nonDialogue l stack hl sr h3
          · exact ih (l.lto + 1) tto (procLine l stack).2 hrest sr h3
        · simp only [if_neg h2] at hsr
          exact ih pos tto stack hrest sr hsr
      · simp only [if_neg h1] at hsr
        simp at hsr

/-- runRanges preserves the no-dialogue property. -/
lemma runRanges_noCurly_nonDialogue :
    ∀ (ranges : List (Nat × Nat)) (ls : List Line) (stack : List (Char × Nat)),
      (∀ l ∈ ls, ∀ c ∈ l.ltext, isCurlyGlyph c = false) →
      ∀ sr ∈ (runRanges ranges ls stack).1, sr.isDialogue = false := by
  intro ranges
  induction ranges with
  | nil => intro ls stack _ sr hsr; simp [runRanges] at hsr
  | cons r rs ih =>
      intro ls stack hfree sr hsr
      rw [runRanges] at hsr
      rcases List.mem_append.mp hsr with h1 | h1
      · exact runLinesFrom_noCurly_nonDialogue ls r.1 r.2 stack hfree sr h1
      · exact ih ls (runLinesFrom ls r.1 r.2 stack).2 hfree sr h1

/-- Every line produced by mkLines carries a text from the document list. -/
lemma mkLines_text_mem :
    ∀ (doc : List (List Char)) (off : Nat) (l : Line),
      l ∈ mkLines off doc → l.ltext ∈ doc := by
  intro doc
  induction doc with
  | nil => intro off l hl; simp [mkLines] at hl
  | cons t rest ih =>
      intro off l hl
      rcases List.mem_cons.mp hl with h1 | h1
      · subst h1; exact List.mem_cons_self t rest
      · exact List.mem_cons_of_mem t (ih (off + t.length + 1) l h1)

/-- C10: a straight double-quote always satisfies the open-glyph test, which
precedes the close-glyph test in the character loop, so it is always pushed
onto the quote stack and never pops it; consequently, on a document whose
only quote glyphs are straight double-quotes (no curly glyphs), the viewport
driver emits no dialogue-classified style range. -/
theorem straight_double_quote_never_dialogue
    (doc : List (List Char)) (ranges : List (Nat × Nat))
    (hfree : ∀ line ∈ doc, ∀ c ∈ line, isCurlyGlyph c = false) :
    (∀ (rest : List Char) (p bs : Nat) (stack : List (Char × Nat)),
        procChars ('"' :: rest) p bs stack =
          ((if bs < p then [⟨bs, p, false⟩] else []) ++
             (procChars rest (p + 1) (p + 1) (('"', p) :: stack)).1,
           (procChars rest (p + 1) (p + 1) (('"', p) :: stack)).2)) ∧
    (∀ sr ∈ buildDecorations true doc ranges, sr.isDialogue = false) := by
  constructor
  · intro rest p bs stack
    exact procChars_open rest p bs stack (by decide)
  · intro sr hsr
    simp only [buildDecorations, if_true] at hsr
    refine runRanges_noCurly_nonDialogue ranges (docLines doc) [] ?_ sr hsr
    intro l hl c hc
    exact hfree l.ltext (mkLines_text_mem doc 0 l hl) c hc

/-- Witness for straight_double_quote_never_dialogue on a concrete document
containing a straight-double-quoted phrase: every emitted range is
non-dialogue. -/
theorem straight_double_quote_never_dialogue_witness :
    (⟨0, 8, false⟩ : StyleRange) ∈
      buildDecorations true ["He said \"hi\" now".data] [(0, 16)] ∧
    StyleRange.isDialogue ⟨0, 8, false⟩ = false :=
  ⟨by decide,
   (straight_double_quote_never_dialogue ["He said \"hi\" now".data] [(0, 16)]
      (by decide)).2 ⟨0, 8, false⟩ (by decide)⟩

lemma contig_lb :
    ∀ (ls : List Line) (off : Nat), Contig off ls → ∀ l ∈ ls, off ≤ l.lfrom := by
  intro ls
  induction ls with
  | nil => intro off _ l hl; simp at hl
  | cons l rest ih =>
      intro off hc x hx
      obtain ⟨h1, h2, h3⟩ := hc
      rcases List.mem_cons.mp hx with rfl | hx
      · exact h1.ge
      · exact le_trans (h1 ▸ le_trans h2 (Nat.le_succ _)) (ih (l.lto + 1) h3 x hx)

lemma contig_wf :
    ∀ (ls : List Line) (off : Nat), Contig off ls → ∀ l ∈ ls, l.lfrom ≤ l.lto := by
  intro ls
  induction ls with
  | nil => intro off _ l hl; simp at hl
  | cons l rest ih =>
      intro off hc x hx
      obtain ⟨h1, h2, h3⟩ := hc
      rcases List.mem_cons.mp hx with rfl | hx
      · exact h2
      · exact ih (l.lto + 1) h3 x hx

lemma contig_pairwise :
    ∀ (ls : List Line) (off : Nat), Contig off ls →
      List.Pairwise (fun a b : Line => a.lto < b.lfrom) ls := by
  intro ls
  induction ls with
  | nil => intro off _; exact List.Pairwise.nil
  | cons l rest ih =>
      intro off hc
      obtain ⟨h1, h2, h3⟩ := hc
      refine List.Pairwise.cons ?_ (ih (l.lto + 1) h3)
      intro b hb
      exact Nat.lt_of_succ_le (contig_lb rest (l.lto + 1) h3 b hb)

lemma mkLines_contig :
    ∀ (doc : List (List Char)) (off : Nat), Contig off (mkLines off doc) := by
  intro doc
  induction doc with
  | nil => intro off; trivial
  | cons t rest ih =>
      intro off
      exact ⟨rfl, Nat.le_add_right off t.length, ih (off + t.length + 1)⟩

/-- The position-jumping loop of buildDecorations over one visible range
processes exactly the lines from the line containing the range's start
through the line containing its end, in order, threading the stack. -/
lemma runLinesFrom_eq_foldLines :
    ∀ (ls : List Line) (off pos tto : Nat) (stack : List (Char × Nat)),
      Contig off ls → off ≤ pos → (pos ≤ tto ∨ pos = off) →
      runLinesFrom ls pos tto stack = foldLines (rangeLines ls pos tto) stack := by
  intro ls
  induction ls with
  | nil =>
      intro off pos tto stack _ _ _
      simp [runLinesFrom, rangeLines, foldLines]
  | cons l rest ih =>
      intro off pos tto stack hc hop hpt
      obtain ⟨h1, h2, h3⟩ := hc
      by_cases hto : pos ≤ tto
      · by_cases hin : l.lfrom ≤ pos ∧ pos ≤ l.lto
        · have hstep :
              rangeLines (l :: rest) pos tto =
                l :: rest.filter (fun l' => decide (pos ≤ l'.lto ∧ l'.lfrom ≤ tto)) := by
            simp only [rangeLines, List.filter_cons, decide_eq_true_eq]
            rw [if_pos ⟨hin.2, le_trans hin.1 hto⟩]
          have hfilter :
              rest.filter (fun l' => decide (pos ≤ l'.lto ∧ l'.lfrom ≤ tto)) =
                rangeLines rest (l.lto + 1) tto := by
            simp only [rangeLines]
            apply List.filter_congr
            intro x hx
            have hlb : l.lto + 1 ≤ x.lfrom := contig_lb rest (l.lto + 1) h3 x hx
            have hwf : x.lfrom ≤ x.lto := contig_wf rest (l.lto + 1) h3 x hx
            have hx1 : pos ≤ x.lto :=
              le_trans hin.2 (le_trans (Nat.le_succ _) (le_trans hlb hwf))
            have hx2 : l.lto + 1 ≤ x.lto := le_trans hlb hwf
            exact decide_eq_decide.mpr
              ⟨fun h => ⟨hx2, h.2⟩, fun h => ⟨hx1, h.2⟩⟩
          rw [runLinesFrom]
          simp only [if_pos hto, if_pos hin]
          rw [hstep, foldLines, hfilter,
            ih (l.lto + 1) (l.lto + 1) tto (procLine l stack).2 h3
              (le_refl _) (Or.inr rfl)]
        · have hlt : ¬ pos ≤ l.lto := fun hle => hin ⟨h1 ▸ hop, hle⟩
          have hstep : rangeLines (l :: rest) pos tto = rangeLines rest pos tto := by
            simp only [rangeLines, List.filter_cons, decide_eq_true_eq]
            rw [if_neg (fun hcl => hlt hcl.1)]
          rw [runLinesFrom]
          simp only [if_pos hto, if_neg hin]
          rw [hstep, ih (l.lto + 1) pos tto stack h3
            (Nat.succ_le_of_lt (Nat.lt_of_not_le hlt)) (Or.inl hto)]
      · have hpo : pos = off := hpt.resolve_left hto
        have hnil : rangeLines (l :: rest) pos tto = [] := by
          simp only [rangeLines]
          rw [List.filter_eq_nil_iff]
          intro x hx
          simp only [decide_eq_true_eq]
          intro hand
          rcases List.mem_cons.mp hx with rfl | hx
          · refine hto ?_
            rw [hpo, ← h1]
            exact hand.2
          · have hlb : l.lto + 1 ≤ x.lfrom := contig_lb rest (l.lto + 1) h3 x hx
            have hx1 : pos ≤ x.lfrom := by
              rw [hpo, ← h1]
              exact le_trans h2 (le_trans (Nat.le_succ _) hlb)
            exact hto (le_trans hx1 hand.2)
        rw [runLinesFrom]
        simp only [if_neg hto]
        rw [hnil, foldLines]

lemma runRanges_eq_specStackRanges :
    ∀ (ranges : List (Nat × Nat)) (ls : List Line) (stack : List (Char × Nat)),
      Contig 0 ls → (∀ r ∈ ranges, r.1 ≤ r.2) →
      runRanges ranges ls stack = specStackRanges ranges ls stack := by
  intro ranges
  induction ranges with
  | nil => intro ls stack _ _; rfl
  | cons r rs ih =>
      intro ls stack hc hr
      rw [runRanges, specStackRanges,
        runLinesFrom_eq_foldLines ls 0 r.1 r.2 stack hc (Nat.zero_le _)
          (Or.inl (hr r (List.mem_cons_self r rs))),
        ih ls (foldLines (rangeLines ls r.1 r.2) stack).2 hc
          (fun x hx => hr x (List.mem_cons_of_mem r hx))]

/-- C1 amended: with the fade feature enabled and well-formed visible ranges
(start at most end), the viewport driver iterates the visible ranges in
order and, within each, the lines from the range's start line through its
end line in order; but instead of running the shared span classifier with a
carried boolean flag, it runs the stack-based glyph-pairing matcher procLine
on each line, emits absolute-offset style ranges directly, and carries the
quote stack across both line boundaries and range boundaries. -/
theorem buildDecorations_stack_fold_structure
    (doc : List (List Char)) (ranges : List (Nat × Nat))
    (hr : ∀ r ∈ ranges, r.1 ≤ r.2) :
    buildDecorations true doc ranges = specStackDriver doc ranges := by
  simp only [buildDecorations, if_true, specStackDriver]
  exact congrArg Prod.fst
    (runRanges_eq_specStackRanges ranges (docLines doc) []
      (mkLines_contig doc 0) hr)

/-- Witness for buildDecorations_stack_fold_structure on a concrete
two-line document and two visible ranges. -/
theorem buildDecorations_stack_fold_structure_witness :
    buildDecorations true ["a\"b".data, "c” d".data] [(0, 3), (4, 8)] =
      specStackDriver ["a\"b".data, "c” d".data] [(0, 3), (4, 8)] :=
  buildDecorations_stack_fold_structure ["a\"b".data, "c” d".data]
    [(0, 3), (4, 8)] (by decide)

/-- On glyph-free text the character loop emits nothing and leaves
bufferStart and the stack unchanged. -/
lemma procChars_quoteFree :
    ∀ (text : List Char) (p bs : Nat) (stack : List (Char × Nat)),
      (∀ c ∈ text, isQuoteGlyph c = false) →
      procChars text p bs stack = ([], bs, stack) := by
  intro text
  induction text with
  | nil => intro p bs stack _; rfl
  | cons c rest ih =>
      intro p bs stack hfree
      have hc : isQuoteGlyph c = false := hfree c (List.mem_cons_self c rest)
      have hrest : ∀ x ∈ rest, isQuoteGlyph x = false :=
        fun x hx => hfree x (List.mem_cons_of_mem c hx)
      have ho : openQuotes.contains c = false := by
        cases h1 : openQuotes.contains c
        · rfl
        · exfalso
          rw [isQuoteGlyph, h1] at hc
          simp at hc
      have hcl : closeQuotes.contains c = false := by
        cases h1 : closeQuotes.contains c
        · rfl
        · exfalso
          rw [isQuoteGlyph, h1] at hc
          simp at hc
      cases stack with
      | nil =>
          rw [procChars_skip_nil rest p bs ho]
          exact ih (p + 1) bs [] hrest
      | cons top stackRest =>
          cases top with
          | mk q qpos =>
              rw [procChars_skip_cons rest p bs qpos stackRest ho
                (by rw [hcl]; rfl)]
              exact ih (p + 1) bs ((q, qpos) :: stackRest) hrest

/-- On a glyph-free line, procLine emits exactly one non-dialogue range
covering the line's text (when nonempty) and leaves the stack unchanged. -/
lemma procLine_quoteFree (l : Line) (stack : List (Char × Nat))
    (hfree : ∀ c ∈ l.ltext, isQuoteGlyph c = false) :
    procLine l stack =
      ((if l.lfrom < l.lto then [⟨l.lfrom, l.lto, false⟩] else []), stack) := by
  unfold procLine
  rw [procChars_quoteFree l.ltext l.lfrom l.lfrom stack hfree]
  simp

/-- On glyph-free lines, folding procLine over the lines emits exactly one
non-dialogue range per nonempty line and returns the stack unchanged. -/
lemma foldLines_quoteFree :
    ∀ (ls : List Line) (stack : List (Char × Nat)),
      (∀ l ∈ ls, ∀ c ∈ l.ltext, isQuoteGlyph c = false) →
      foldLines ls stack = (linesToRanges ls, stack) := by
  intro ls
  induction ls with
  | nil => intro stack _; rfl
  | cons l rest ih =>
      intro stack hfree
      have hl := hfree l (List.mem_cons_self l rest)
      have hrest : ∀ l' ∈ rest, ∀ c ∈ l'.ltext, isQuoteGlyph c = false :=
        fun l' h' => hfree l' (List.mem_cons_of_mem l h')
      rw [foldLines, procLine_quoteFree l stack hl]
      simp only [linesToRanges, List.filterMap_cons]
      by_cases h : l.lfrom < l.lto
      · simp only [if_pos h]
        rw [ih stack hrest]
        simp [linesToRanges]
      · simp only [if_neg h]
        rw [ih stack hrest]
        simp [linesToRanges]

lemma mem_linesToRanges (ls : List Line) (sr : StyleRange) :
    sr ∈ linesToRanges ls ↔
      ∃ l ∈ ls, l.lfrom < l.lto ∧ sr = ⟨l.lfrom, l.lto, false⟩ := by
  simp only [linesToRanges, List.mem_filterMap]
  refine exists_congr fun l => and_congr_right fun _ => ?_
  by_cases h : l.lfrom < l.lto
  · simp [h, eq_comm]
  · simp [h]

lemma linesToRanges_pairwise :
    ∀ ls : List Line, List.Pairwise (fun a b : Line => a.lto ≤ b.lfrom) ls →
      List.Pairwise (fun a b : StyleRange => a.stop ≤ b.start)
        (linesToRanges ls) := by
  intro ls
  induction ls with
  | nil => intro _; exact List.Pairwise.nil
  | cons l rest ih =>
      intro hp
      have hp1 := List.pairwise_cons.mp hp
      have htail := ih hp1.2
      simp only [linesToRanges, List.filterMap_cons]
      by_cases h : l.lfrom < l.lto
      · simp only [if_pos h]
        refine List.Pairwise.cons ?_ htail
        intro b hb
        rcases (mem_linesToRanges rest b).mp hb with ⟨l', hl', _, rfl⟩
        exact hp1.1 l' hl'
      · simp only [if_neg h]
        exact htail

lemma covers_linesToRanges (ls : List Line) (p : Nat) :
    (∃ sr ∈ linesToRanges ls, sr.start ≤ p ∧ p < sr.stop) ↔
      (∃ l ∈ ls, l.lfrom ≤ p ∧ p < l.lto) := by
  constructor
  · rintro ⟨sr, hm, hc1, hc2⟩
    rcases (mem_linesToRanges ls sr).mp hm with ⟨l, hl, _, rfl⟩
    exact ⟨l, hl, hc1, hc2⟩
  · rintro ⟨l, hl, hc1, hc2⟩
    exact ⟨⟨l.lfrom, l.lto, false⟩,
      (mem_linesToRanges ls _).mpr ⟨l, hl, lt_of_le_of_lt hc1 hc2, rfl⟩,
      hc1, hc2⟩

/-- C3 amended: the emitted ranges are line-aligned, not window-aligned.
For a visible range [f,t] over a document whose lines contain no quote
glyphs, the driver emits exactly one non-dialogue range per nonempty
processed line (the lines from the one containing f through the one
containing t); these ranges are pairwise disjoint (no overlaps) and cover
exactly the text positions of the processed lines — so coverage has no gaps
within any line's text, but newline separators and positions outside the
processed lines are not covered, and whole lines are covered even when f or
t falls mid-line.  (With quote glyphs present the claim also fails: an
unmatched open glyph's position is never covered, and a dialogue range
closed on a later line overlaps earlier non-dialogue tails — see the
counterexample.) -/
theorem buildDecorations_quoteFree_coverage
    (doc : List (List Char)) (f t : Nat) (hft : f ≤ t)
    (hfree : ∀ line ∈ doc, ∀ c ∈ line, isQuoteGlyph c = false) :
    buildDecorations true doc [(f, t)] =
      linesToRanges (rangeLines (docLines doc) f t) ∧
    List.Pairwise (fun a b : StyleRange => a.stop ≤ b.start)
      (buildDecorations true doc [(f, t)]) ∧
    (∀ p : Nat,
      (∃ sr ∈ buildDecorations true doc [(f, t)], sr.start ≤ p ∧ p < sr.stop) ↔
      (∃ l ∈ rangeLines (docLines doc) f t, l.lfrom ≤ p ∧ p < l.lto)) := by
  have hfree' : ∀ l ∈ docLines doc, ∀ c ∈ l.ltext, isQuoteGlyph c = false :=
    fun l hl c hc => hfree l.ltext (mkLines_text_mem doc 0 l hl) c hc
  have hfreeRange : ∀ l ∈ rangeLines (docLines doc) f t,
      ∀ c ∈ l.ltext, isQuoteGlyph c = false := by
    intro l hl
    exact hfree' l (List.mem_filter.mp hl).1
  have heq : buildDecorations true doc [(f, t)] =
      linesToRanges (rangeLines (docLines doc) f t) := by
    simp only [buildDecorations, if_true]
    rw [runRanges,
      runLinesFrom_eq_foldLines (docLines doc) 0 f t [] (mkLines_contig doc 0)
        (Nat.zero_le f) (Or.inl hft),
      foldLines_quoteFree (rangeLines (docLines doc) f t) [] hfreeRange]
    simp [runRanges]
  refine ⟨heq, ?_, ?_⟩
  · rw [heq]
    refine linesToRanges_pairwise _ ?_
    have hpw : List.Pairwise (fun a b : Line => a.lto < b.lfrom)
        (docLines doc) := contig_pairwise (docLines doc) 0 (mkLines_contig doc 0)
    exact ((hpw.filter _).imp fun h => Nat.le_of_lt h)
  · intro p
    rw [heq]
    exact covers_linesToRanges _ p

/-- Witness for buildDecorations_quoteFree_coverage on a concrete glyph-free
two-line document: the disjointness conclusion at f = 0, t = 5. -/
theorem buildDecorations_quoteFree_coverage_witness :
    List.Pairwise (fun a b : StyleRange => a.stop ≤ b.start)
      (buildDecorations true ["ab".data, "cd".data] [(0, 5)]) :=
  (buildDecorations_quoteFree_coverage ["ab".data, "cd".data] 0 5
    (by decide) (by decide)).2.1
